import Mathlib

/-!
Verification of the text-processing and pipeline-orchestration core of a
PDF-to-audiobook converter (audiobook_converter.py).

Python strings are modelled as `List Char`; `str.split`, `str.strip`,
`str.replace` and `' '.join` are modelled by the functions below.  The
external collaborators (gTTS synthesis, pydub decoding/merging) are
modelled by boolean oracles: `ok i` tells whether synthesis of chunk `i`
succeeds, `pydubAvailable` whether the merge backend is importable, and
`mergeOk` whether the merge try-block succeeds.  Audio part files are
identified by their 1-based chunk index.
-/

/-- ASCII whitespace, as recognised by Python `str.split()` / `str.strip()`
on the texts in scope. -/
def isSpace (c : Char) : Bool :=
  c == ' ' || c == '\t' || c == '\n' || c == '\r' || c == '\x0b' || c == '\x0c'

/-- Python `s.split(sep)` for a one-character separator, generalised to a
predicate: split at every character satisfying `p`, keeping empty pieces. -/
def splitOnPred (p : Char → Bool) : List Char → List (List Char)
  | [] => [[]]
  | c :: rest =>
    if p c then [] :: splitOnPred p rest
    else (splitOnPred p rest).modifyHead (fun w => c :: w)

/-- Python `s.split(c)` for a single-character separator `c`. -/
def pySplit (sep : Char) (l : List Char) : List (List Char) :=
  splitOnPred (fun c => c == sep) l

/-- Python `s.split()` with no argument: maximal whitespace-free words. -/
def pyWords (l : List Char) : List (List Char) :=
  (splitOnPred isSpace l).filter (fun w => w ≠ [])

/-- Python `' '.join(ws)`. -/
def joinSpace : List (List Char) → List Char
  | [] => []
  | [w] => w
  | w :: ws => w ++ ' ' :: joinSpace ws

/-- Python `s.strip()`: remove leading and trailing whitespace. -/
def pyStrip (l : List Char) : List Char :=
  ((l.dropWhile isSpace).reverse.dropWhile isSpace).reverse

/-- Python `s.replace(a, b)` for single characters `a`, `b`. -/
def replaceChar (a b : Char) (l : List Char) : List Char :=
  l.map (fun c => if c == a then b else c)

/-- The first half of `clean_text` (lines 112-121): collapse all whitespace
runs to single spaces (`' '.join(text.split())`), then apply the six
single-character replacements in source order. -/
def collapsedReplaced (text : List Char) : List Char :=
  let t1 := joinSpace (pyWords text)
  let t2 := replaceChar '’' '\x27' t1
  let t3 := replaceChar '‘' '\x27' t2
  let t4 := replaceChar '“' '\x22' t3
  let t5 := replaceChar '”' '\x22' t4
  let t6 := replaceChar '–' '-' t5
  replaceChar '—' '-' t6

/-- `clean_text` (audiobook_converter.py, lines 100-136): after collapsing
and replacing, split on newlines, keep only stripped lines longer than 10
characters, and rejoin with single spaces. -/
def clean_text (text : List Char) : List Char :=
  let t7 := collapsedReplaced text
  let lns := pySplit '\n' t7
  let cleanedLines := (lns.map pyStrip).filter (fun l => 10 < l.length)
  joinSpace cleanedLines

/-- Python `text.replace(". ", ".|")`: leftmost-first, non-overlapping. -/
def replaceDotSpace : List Char → List Char
  | '.' :: ' ' :: rest => '.' :: '|' :: replaceDotSpace rest
  | c :: rest => c :: replaceDotSpace rest
  | [] => []

/-- The sentence fragments of `split_text_into_chunks` (line 152):
`text.replace('. ', '.|').split('|')`. -/
def sentences (text : List Char) : List (List Char) :=
  pySplit '|' (replaceDotSpace text)

/-- The accumulation loop of `split_text_into_chunks` (lines 154-167). -/
def chunkLoop (chunkSize : Nat) :
    List (List Char) → List (List Char) → List Char → List (List Char)
  | [], chunks, cur => if cur = [] then chunks else chunks ++ [pyStrip cur]
  | s :: rest, chunks, cur =>
    if chunkSize < cur.length + s.length ∧ cur ≠ [] then
      chunkLoop chunkSize rest (chunks ++ [pyStrip cur]) s
    else
      chunkLoop chunkSize rest chunks (if cur = [] then s else cur ++ ' ' :: s)

/-- `split_text_into_chunks` (lines 138-170). -/
def split_text_into_chunks (text : List Char) (chunkSize : Nat) : List (List Char) :=
  chunkLoop chunkSize (sentences text) [] []

/-- The loop of `text_to_speech` (lines 187-205): one synthesis attempt per
chunk with 1-based index `i`; on failure the chunk is skipped and the loop
continues.  `ok i` models whether the gTTS call for chunk `i` succeeds. -/
def ttsLoop (ok : Nat → Bool) : Nat → List (List Char) → List Nat
  | _, [] => []
  | i, _ :: rest =>
    if ok i then i :: ttsLoop ok (i + 1) rest else ttsLoop ok (i + 1) rest

/-- `text_to_speech` (lines 172-208); returns the part files (as indices)
that were successfully synthesized. -/
def text_to_speech (ok : Nat → Bool) (chunks : List (List Char)) : List Nat :=
  ttsLoop ok 1 chunks

/-- The dynamic return value of `merge_audio_files` / `convert`: a single
part-file path, the merged-file path, a list of part-file paths, or
Python `None`. -/
inductive PyResult where
  | partFile (i : Nat)
  | mergedFile
  | fileList (files : List Nat)
  | pyNone
deriving DecidableEq

/-- `merge_audio_files` (lines 210-252).  `mergeOk` models whether the
try-block (decode, concatenate, export) succeeds. -/
def merge_audio_files (pydubAvailable mergeOk : Bool) (audioFiles : List Nat) :
    PyResult :=
  if pydubAvailable = false then PyResult.fileList audioFiles
  else if audioFiles.length ≤ 1 then
    match audioFiles with
    | [] => PyResult.pyNone
    | f :: _ => PyResult.partFile f
  else if mergeOk then PyResult.mergedFile
  else PyResult.fileList audioFiles

/-- Symbolic audio content: a synthesized segment or one second of silence. -/
inductive AudTok where
  | seg (i : Nat)
  | gap
deriving DecidableEq

/-- The concatenation loop of `merge_audio_files` (lines 230-238):
`combined += segment; combined += 1 second of silence`, per file. -/
def combinedSeq (audioFiles : List Nat) : List AudTok :=
  audioFiles.foldl (fun acc f => acc ++ [AudTok.seg f, AudTok.gap]) []

/-- Whether a Python value is a `pathlib.Path` (the isinstance check on
line 292). -/
def isPathValue : PyResult → Bool
  | PyResult.partFile _ => true
  | PyResult.mergedFile => true
  | _ => false

/-- Outcome of `convert`: the returned value and the part files whose
deletion was attempted during cleanup. -/
structure ConvertOutcome where
  result : PyResult
  deletedParts : List Nat
deriving DecidableEq

/-- `convert` (lines 254-311).  `rawText` models the (stripped) output of
`extract_text_from_pdf`; `Except.error` models a raised exception. -/
def convert (pydubAvailable : Bool) (ok : Nat → Bool) (mergeOk : Bool)
    (rawText : List Char) (mergeFiles cleanupParts : Bool) :
    Except (List Char) ConvertOutcome :=
  if rawText = [] then
    Except.error (String.data "No text could be extracted from the PDF")
  else
    let cleanedText := clean_text rawText
    let textChunks := split_text_into_chunks cleanedText 4500
    let audioFiles := text_to_speech ok textChunks
    if audioFiles = [] then
      Except.error (String.data "No audio files were generated")
    else if mergeFiles ∧ 1 < audioFiles.length ∧ pydubAvailable then
      let finalFile := merge_audio_files pydubAvailable mergeOk audioFiles
      let deleted := if cleanupParts ∧ isPathValue finalFile then audioFiles else []
      Except.ok ⟨finalFile, deleted⟩
    else
      Except.ok ⟨if audioFiles.length = 1 then PyResult.partFile audioFiles.headI
                 else PyResult.fileList audioFiles, []⟩

/-- Whether `convert` terminated by raising (an error). -/
def isError : Except (List Char) ConvertOutcome → Bool
  | Except.error _ => true
  | Except.ok _ => false

/-- The part files carried by a `convert` result value. -/
def resultFiles : PyResult → List Nat
  | PyResult.partFile i => [i]
  | PyResult.mergedFile => []
  | PyResult.fileList fs => fs
  | PyResult.pyNone => []

/-- `l` has no leading and no trailing whitespace character. -/
def noEdgeSpace (l : List Char) : Bool :=
  (match l.head? with | some c => !isSpace c | none => true) &&
  (match l.getLast? with | some c => !isSpace c | none => true)

/-- The splitter never returns an empty list of pieces. -/
theorem splitOnPred_ne_nil (p : Char → Bool) (l : List Char) : splitOnPred p l ≠ [] := by
  induction l with
  | nil => simp [splitOnPred]
  | cons c rest ih =>
    simp only [splitOnPred]
    split
    · simp
    · cases h : splitOnPred p rest with
      | nil => exact absurd h ih
      | cons a as => simp

/-- Pieces produced by the splitter contain no separator character. -/
theorem mem_splitOnPred {p : Char → Bool} :
    ∀ {l w : List Char}, w ∈ splitOnPred p l → ∀ c ∈ w, p c = false := by
  intro l
  induction l with
  | nil =>
    intro w hw c hc
    simp [splitOnPred] at hw
    subst hw
    simp at hc
  | cons a rest ih =>
    intro w hw c hc
    simp only [splitOnPred] at hw
    by_cases hpa : p a
    · rw [if_pos hpa] at hw
      rcases List.mem_cons.mp hw with rfl | hw2
      · simp at hc
      · exact ih hw2 c hc
    · rw [if_neg hpa] at hw
      cases hsp : splitOnPred p rest with
      | nil => exact absurd hsp (splitOnPred_ne_nil p rest)
      | cons b bs =>
        rw [hsp, List.modifyHead_cons] at hw
        rcases List.mem_cons.mp hw with rfl | hw2
        · rcases List.mem_cons.mp hc with rfl | hc2
          · simpa using hpa
          · exact ih (by rw [hsp]; exact List.mem_cons_self b bs) c hc2
        · exact ih (by rw [hsp]; exact List.mem_cons_of_mem b hw2) c hc

/-- A list without separator characters is returned whole by the splitter. -/
theorem splitOnPred_eq_self {p : Char → Bool} :
    ∀ {l : List Char}, (∀ c ∈ l, p c = false) → splitOnPred p l = [l] := by
  intro l
  induction l with
  | nil => intro _; rfl
  | cons a rest ih =>
    intro h
    have hpa : p a = false := h a (List.mem_cons_self a rest)
    rw [splitOnPred, if_neg (by simp [hpa]),
        ih (fun c hc => h c (List.mem_cons_of_mem a hc)), List.modifyHead_cons]

/-- `joinSpace` on a cons with a nonempty tail. -/
theorem joinSpace_cons_of_ne_nil {ws : List (List Char)} (w : List Char) (h : ws ≠ []) :
    joinSpace (w :: ws) = w ++ ' ' :: joinSpace ws := by
  cases ws with
  | nil => exact absurd rfl h
  | cons a as => rfl

/-- A piece of the form `a ++ " " ++ b` joins exactly like the two pieces
`a`, `b`. -/
theorem joinSpace_merge :
    ∀ (pre : List (List Char)) (a b : List Char) (post : List (List Char)),
      joinSpace (pre ++ (a ++ ' ' :: b) :: post) = joinSpace (pre ++ a :: b :: post) := by
  intro pre
  induction pre with
  | nil =>
    intro a b post
    cases post with
    | nil => simp [joinSpace]
    | cons q qs =>
      simp only [List.nil_append]
      rw [joinSpace_cons_of_ne_nil (a ++ ' ' :: b) (by simp),
          joinSpace_cons_of_ne_nil a (by simp),
          joinSpace_cons_of_ne_nil b (by simp)]
      simp
  | cons w pre ih =>
    intro a b post
    simp only [List.cons_append]
    rw [joinSpace_cons_of_ne_nil _ (by simp), joinSpace_cons_of_ne_nil _ (by simp), ih]

/-- Characters of a join are separator spaces or characters of the pieces. -/
theorem mem_joinSpace {c : Char} :
    ∀ {ws : List (List Char)}, c ∈ joinSpace ws → c = ' ' ∨ ∃ w ∈ ws, c ∈ w := by
  intro ws
  induction ws with
  | nil => intro h; simp [joinSpace] at h
  | cons w ws2 ih =>
    intro h
    cases ws2 with
    | nil =>
      right
      refine ⟨w, by simp, ?_⟩
      simpa [joinSpace] using h
    | cons a as =>
      rw [joinSpace_cons_of_ne_nil _ (by simp)] at h
      rcases List.mem_append.mp h with hw | h2
      · right; exact ⟨w, by simp, hw⟩
      · rcases List.mem_cons.mp h2 with rfl | h3
        · left; rfl
        · rcases ih h3 with h4 | ⟨v, hv, hcv⟩
          · left; exact h4
          · right; exact ⟨v, List.mem_cons_of_mem w hv, hcv⟩

/-- The head of a join is the head of the first (nonempty) piece. -/
theorem joinSpace_head {w : List Char} (ws : List (List Char)) (h : w ≠ []) :
    (joinSpace (w :: ws)).head? = w.head? := by
  cases ws with
  | nil => rfl
  | cons a as =>
    rw [joinSpace_cons_of_ne_nil _ (by simp)]
    cases w with
    | nil => exact absurd rfl h
    | cons x xs => rfl

/-- No two adjacent characters of `l` are both whitespace: every whitespace
run in `l` has length at most one. -/
def spaceSeparated (l : List Char) : Prop :=
  List.Chain' (fun a b => isSpace a = false ∨ isSpace b = false) l

/-- A list of non-whitespace characters is `spaceSeparated`. -/
theorem spaceSeparated_of_all :
    ∀ (w : List Char), (∀ c ∈ w, isSpace c = false) → spaceSeparated w := by
  intro w
  induction w with
  | nil => intro _; exact List.chain'_nil
  | cons a t ih =>
    intro h
    cases t with
    | nil => exact List.chain'_singleton a
    | cons b t2 =>
      rw [spaceSeparated, List.chain'_cons]
      exact ⟨Or.inl (h a (by simp)),
             ih (fun c hc => h c (List.mem_cons_of_mem a hc))⟩

/-- Joining nonempty whitespace-free words with single spaces yields a
`spaceSeparated` list. -/
theorem spaceSeparated_joinSpace :
    ∀ (ws : List (List Char)),
      (∀ w ∈ ws, w ≠ [] ∧ ∀ c ∈ w, isSpace c = false) →
      spaceSeparated (joinSpace ws) := by
  intro ws
  induction ws with
  | nil => intro _; exact List.chain'_nil
  | cons w ws2 ih =>
    intro h
    obtain ⟨hwne, hwp⟩ := h w (by simp)
    cases ws2 with
    | nil => exact spaceSeparated_of_all w hwp
    | cons v vs =>
      rw [joinSpace_cons_of_ne_nil _ (by simp)]
      have hrest : spaceSeparated (joinSpace (v :: vs)) :=
        ih (fun u hu => h u (List.mem_cons_of_mem w hu))
      have hv := h v (by simp)
      rw [spaceSeparated, List.chain'_append]
      refine ⟨spaceSeparated_of_all w hwp, ?_, ?_⟩
      · rw [List.chain'_cons']
        refine ⟨?_, hrest⟩
        intro y hy
        rw [joinSpace_head vs hv.1] at hy
        exact Or.inr (hv.2 y (List.mem_of_mem_head? hy))
      · intro x hx y hy
        exact Or.inl (hwp x (List.mem_of_mem_getLast? hx))

/-- Whitespace characters of the collapsed text are single `' '`s. -/
theorem onlySpace_joinSpace_words (text : List Char) :
    ∀ c ∈ joinSpace (pyWords text), isSpace c = true → c = ' ' := by
  intro c hc hcs
  rcases mem_joinSpace hc with rfl | ⟨w, hw, hcw⟩
  · rfl
  · rw [pyWords, List.mem_filter] at hw
    exact absurd hcs (by rw [mem_splitOnPred hw.1 c hcw]; simp)

/-- Single-character replacement with a non-whitespace target never turns a
non-whitespace character into whitespace. -/
theorem isSpace_replaceCharFun {a b : Char} (hb : isSpace b = false) {x : Char}
    (hx : isSpace x = false) : isSpace (if x == a then b else x) = false := by
  split
  · exact hb
  · exact hx

/-- Membership after a single-character replacement. -/
theorem mem_replaceChar {a b c : Char} {l : List Char} (h : c ∈ replaceChar a b l) :
    c = b ∨ (c ∈ l ∧ c ≠ a) := by
  rw [replaceChar, List.mem_map] at h
  obtain ⟨x, hx, hfx⟩ := h
  by_cases hxa : x == a
  · rw [if_pos hxa] at hfx
    exact Or.inl hfx.symm
  · rw [if_neg hxa] at hfx
    subst hfx
    exact Or.inr ⟨hx, by simpa using hxa⟩

/-- Replacement with a non-whitespace target preserves `spaceSeparated`. -/
theorem spaceSeparated_replaceChar {a b : Char} (hb : isSpace b = false)
    {l : List Char} (h : spaceSeparated l) : spaceSeparated (replaceChar a b l) := by
  rw [spaceSeparated, replaceChar, List.chain'_map]
  exact List.Chain'.imp
    (fun x y hxy =>
      hxy.imp (fun hx => isSpace_replaceCharFun hb hx) (fun hy => isSpace_replaceCharFun hb hy))
    h

/-- Replacement with a non-whitespace target preserves "every whitespace
character is a plain space". -/
theorem onlySpace_replaceChar {a b : Char} (hb : isSpace b = false) {l : List Char}
    (h : ∀ c ∈ l, isSpace c = true → c = ' ') :
    ∀ c ∈ replaceChar a b l, isSpace c = true → c = ' ' := by
  intro c hc hcs
  rcases mem_replaceChar hc with rfl | ⟨hcl, _⟩
  · exact absurd hcs (by rw [hb]; simp)
  · exact h c hcl hcs

/-- Stripping only removes characters. -/
theorem mem_pyStrip {c : Char} {l : List Char} (h : c ∈ pyStrip l) : c ∈ l := by
  rw [pyStrip, List.mem_reverse] at h
  have h2 := (List.dropWhile_sublist _).subset h
  rw [List.mem_reverse] at h2
  exact (List.dropWhile_sublist _).subset h2

/-- Stripping never lengthens a list. -/
theorem length_pyStrip_le (l : List Char) : (pyStrip l).length ≤ l.length := by
  rw [pyStrip, List.length_reverse]
  calc ((l.dropWhile isSpace).reverse.dropWhile isSpace).length
      ≤ (l.dropWhile isSpace).reverse.length := (List.dropWhile_sublist _).length_le
    _ = (l.dropWhile isSpace).length := List.length_reverse _
    _ ≤ l.length := (List.dropWhile_sublist _).length_le

/-- A chain restricted to a suffix. -/
theorem chain'_of_suffix {R : Char → Char → Prop} {l l' : List Char}
    (hs : l' <:+ l) (h : List.Chain' R l) : List.Chain' R l' := by
  obtain ⟨pre, rfl⟩ := hs
  exact (List.chain'_append.mp h).2.1

/-- `spaceSeparated` is preserved by reversal. -/
theorem spaceSeparated_reverse {l : List Char} (h : spaceSeparated l) :
    spaceSeparated l.reverse := by
  rw [spaceSeparated, List.chain'_reverse]
  exact List.Chain'.imp (fun x y hxy => hxy.symm) h

/-- `spaceSeparated` is preserved by stripping. -/
theorem spaceSeparated_pyStrip {l : List Char} (h : spaceSeparated l) :
    spaceSeparated (pyStrip l) :=
  spaceSeparated_reverse
    (chain'_of_suffix (List.dropWhile_suffix _)
      (spaceSeparated_reverse (chain'_of_suffix (List.dropWhile_suffix _) h)))

/-- `dropWhile` is the identity when the head fails the predicate. -/
theorem dropWhile_eq_self_of_head {p : Char → Bool} :
    ∀ {l : List Char}, (∀ c ∈ l.head?, p c = false) → l.dropWhile p = l := by
  intro l h
  cases l with
  | nil => rfl
  | cons a t =>
    have ha : p a = false := h a (by simp)
    simp [List.dropWhile_cons, ha]

/-- Extracting the head condition from `noEdgeSpace`. -/
theorem noEdgeSpace_head {l : List Char} (h : noEdgeSpace l = true) :
    ∀ c ∈ l.head?, isSpace c = false := by
  intro c hc
  rw [noEdgeSpace, Bool.and_eq_true] at h
  have h1 := h.1
  rw [hc] at h1
  simpa using h1

/-- Extracting the last-character condition from `noEdgeSpace`. -/
theorem noEdgeSpace_last {l : List Char} (h : noEdgeSpace l = true) :
    ∀ c ∈ l.getLast?, isSpace c = false := by
  intro c hc
  rw [noEdgeSpace, Bool.and_eq_true] at h
  have h2 := h.2
  rw [hc] at h2
  simpa using h2

/-- Building `noEdgeSpace` from the two edge conditions. -/
theorem noEdgeSpace_intro {l : List Char}
    (h1 : ∀ c ∈ l.head?, isSpace c = false)
    (h2 : ∀ c ∈ l.getLast?, isSpace c = false) : noEdgeSpace l = true := by
  rw [noEdgeSpace, Bool.and_eq_true]
  constructor
  · cases hl : l.head? with
    | none => rfl
    | some c => simpa using h1 c hl
  · cases hl : l.getLast? with
    | none => rfl
    | some c => simpa using h2 c hl

/-- Stripping a list with no edge whitespace is the identity. -/
theorem pyStrip_eq_self {l : List Char} (h : noEdgeSpace l = true) : pyStrip l = l := by
  have e1 := dropWhile_eq_self_of_head (p := isSpace) (noEdgeSpace_head h)
  have e2 : l.reverse.dropWhile isSpace = l.reverse := by
    refine dropWhile_eq_self_of_head ?_
    intro c hc
    rw [List.head?_reverse] at hc
    exact noEdgeSpace_last h c hc
  rw [pyStrip, e1, e2, List.reverse_reverse]

/-- The head of an append is the head of its nonempty first part. -/
theorem head?_append_of_ne_nil {a : List Char} (r : List Char) (h : a ≠ []) :
    (a ++ r).head? = a.head? := by
  cases a with
  | nil => exact absurd rfl h
  | cons x t => rfl

/-- Joining two nonempty edge-clean words with a single space is edge-clean. -/
theorem noEdgeSpace_join {a b : List Char} (ha : noEdgeSpace a = true)
    (hb : noEdgeSpace b = true) (hane : a ≠ []) (hbne : b ≠ []) :
    noEdgeSpace (a ++ ' ' :: b) = true := by
  refine noEdgeSpace_intro ?_ ?_
  · intro c hc
    rw [head?_append_of_ne_nil _ hane] at hc
    exact noEdgeSpace_head ha c hc
  · intro c hc
    rw [List.getLast?_append] at hc
    cases b with
    | nil => exact absurd rfl hbne
    | cons y t =>
      rw [List.getLast?_cons_cons] at hc
      cases hbl : (y :: t).getLast? with
      | none => exact absurd (List.getLast?_eq_none_iff.mp hbl) (by simp)
      | some d =>
        rw [hbl] at hc
        have hcd : c = d := by
          have := hc
          simp only [Option.or_some, Option.mem_def, Option.some.injEq] at this
          exact this.symm
        rw [hcd]
        exact noEdgeSpace_last hb d hbl

/-- Whitespace characters of the collapsed-and-replaced text are plain
spaces. -/
theorem onlySpace_collapsedReplaced (text : List Char) :
    ∀ c ∈ collapsedReplaced text, isSpace c = true → c = ' ' := by
  rw [collapsedReplaced]
  exact onlySpace_replaceChar (by decide)
    (onlySpace_replaceChar (by decide)
      (onlySpace_replaceChar (by decide)
        (onlySpace_replaceChar (by decide)
          (onlySpace_replaceChar (by decide)
            (onlySpace_replaceChar (by decide)
              (onlySpace_joinSpace_words text))))))

/-- The words of `pyWords` are nonempty and whitespace-free. -/
theorem pyWords_good (text : List Char) :
    ∀ w ∈ pyWords text, w ≠ [] ∧ ∀ c ∈ w, isSpace c = false := by
  intro w hwm
  rw [pyWords, List.mem_filter] at hwm
  exact ⟨by simpa using hwm.2, mem_splitOnPred hwm.1⟩

/-- The collapsed-and-replaced text has no two adjacent whitespace
characters. -/
theorem spaceSeparated_collapsedReplaced (text : List Char) :
    spaceSeparated (collapsedReplaced text) := by
  rw [collapsedReplaced]
  exact spaceSeparated_replaceChar (by decide)
    (spaceSeparated_replaceChar (by decide)
      (spaceSeparated_replaceChar (by decide)
        (spaceSeparated_replaceChar (by decide)
          (spaceSeparated_replaceChar (by decide)
            (spaceSeparated_replaceChar (by decide)
              (spaceSeparated_joinSpace (pyWords text) (pyWords_good text)))))))

/-- None of the six replaced typographic characters survives the
replacement stage. -/
theorem collapsedReplaced_no_typographic (text : List Char) :
    ∀ c ∈ collapsedReplaced text,
      c ≠ '‘' ∧ c ≠ '’' ∧ c ≠ '“' ∧ c ≠ '”' ∧ c ≠ '–' ∧ c ≠ '—' := by
  rw [collapsedReplaced]
  intro c hc
  rcases mem_replaceChar hc with rfl | ⟨hc2, hics⟩
  · decide
  rcases mem_replaceChar hc2 with rfl | ⟨hc3, hien⟩
  · decide
  rcases mem_replaceChar hc3 with rfl | ⟨hc4, hirq⟩
  · decide
  rcases mem_replaceChar hc4 with rfl | ⟨hc5, hilq⟩
  · decide
  rcases mem_replaceChar hc5 with rfl | ⟨hc6, hilsq⟩
  · decide
  rcases mem_replaceChar hc6 with rfl | ⟨_, hirsq⟩
  · decide
  exact ⟨hilsq, hirsq, hilq, hirq, hien, hics⟩

/-- The split-filter-join tail of `clean_text` degenerates: the collapsed
text contains no newline, so it is kept whole or dropped whole. -/
theorem clean_text_eq (text : List Char) :
    clean_text text =
      if 10 < (pyStrip (collapsedReplaced text)).length
      then pyStrip (collapsedReplaced text) else [] := by
  have hnl : ∀ c ∈ collapsedReplaced text, (c == '\n') = false := by
    intro c hc
    cases hcb : c == '\n' with
    | false => rfl
    | true =>
      have hcnl : c = '\n' := eq_of_beq hcb
      subst hcnl
      exact absurd (onlySpace_collapsedReplaced text '\n' hc (by decide)) (by decide)
  rw [clean_text, pySplit, splitOnPred_eq_self hnl]
  simp only [List.map_cons, List.map_nil, List.filter]
  cases h10 : decide (10 < (pyStrip (collapsedReplaced text)).length) with
  | false =>
    rw [if_neg (by simpa using h10)]
    rfl
  | true =>
    rw [if_pos (by simpa using h10)]
    rfl

/-- C5: for every input string, the output of `clean_text` contains no run
of whitespace longer than one space and none of the characters U+2018,
U+2019, U+201C, U+201D, U+2013, U+2014. -/
theorem c5_clean_text_normalized (text : List Char) :
    spaceSeparated (clean_text text) ∧
    ∀ c ∈ clean_text text,
      c ≠ '‘' ∧ c ≠ '’' ∧ c ≠ '“' ∧ c ≠ '”' ∧ c ≠ '–' ∧ c ≠ '—' := by
  rw [clean_text_eq]
  by_cases h10 : 10 < (pyStrip (collapsedReplaced text)).length
  · rw [if_pos h10]
    refine ⟨spaceSeparated_pyStrip (spaceSeparated_collapsedReplaced text), ?_⟩
    intro c hc
    exact collapsedReplaced_no_typographic text c (mem_pyStrip hc)
  · rw [if_neg h10]
    exact ⟨List.chain'_nil, by intro c hc; simp at hc⟩

/-- The accumulation loop never removes an already-emitted chunk. -/
theorem mem_chunkLoop_of_mem {N : Nat} :
    ∀ (L chunks : List (List Char)) (cur c : List Char),
      c ∈ chunks → c ∈ chunkLoop N L chunks cur := by
  intro L
  induction L with
  | nil =>
    intro chunks cur c hc
    simp only [chunkLoop]
    split
    · exact hc
    · exact List.mem_append_left _ hc
  | cons s rest ih =>
    intro chunks cur c hc
    simp only [chunkLoop]
    split
    · exact ih _ _ _ (List.mem_append_left _ hc)
    · exact ih _ _ _ hc

/-- An oversized current chunk is emitted (stripped) no matter what
fragments remain. -/
theorem pyStrip_cur_mem_chunkLoop {N : Nat} :
    ∀ (L chunks : List (List Char)) (cur : List Char),
      N < cur.length → pyStrip cur ∈ chunkLoop N L chunks cur := by
  intro L
  induction L with
  | nil =>
    intro chunks cur hN
    have hne : cur ≠ [] := by
      intro h
      rw [h] at hN
      simp at hN
    simp only [chunkLoop]
    rw [if_neg hne]
    exact List.mem_append_right _ (by simp)
  | cons s rest ih =>
    intro chunks cur hN
    have hne : cur ≠ [] := by
      intro h
      rw [h] at hN
      simp at hN
    simp only [chunkLoop]
    rw [if_pos ⟨Nat.lt_of_lt_of_le hN (Nat.le_add_right _ _), hne⟩]
    exact mem_chunkLoop_of_mem rest _ s _ (List.mem_append_right _ (by simp))

/-- A fragment longer than the chunk size always becomes its own (stripped)
chunk. -/
theorem oversized_fragment_mem {N : Nat} :
    ∀ (L chunks : List (List Char)) (cur s : List Char),
      s ∈ L → N < s.length → pyStrip s ∈ chunkLoop N L chunks cur := by
  intro L
  induction L with
  | nil =>
    intro chunks cur s hs
    simp at hs
  | cons t rest ih =>
    intro chunks cur s hs hN
    rcases List.mem_cons.mp hs with rfl | hs2
    · simp only [chunkLoop]
      by_cases hcond : N < cur.length + s.length ∧ cur ≠ []
      · rw [if_pos hcond]
        exact pyStrip_cur_mem_chunkLoop rest _ s hN
      · rw [if_neg hcond]
        have hcur : cur = [] := by
          by_contra hne
          exact hcond ⟨Nat.lt_of_lt_of_le hN (Nat.le_add_left _ _), hne⟩
        simp only [hcur, if_pos]
        exact pyStrip_cur_mem_chunkLoop rest chunks s hN
    · simp only [chunkLoop]
      split
      · exact ih _ _ _ hs2 hN
      · exact ih _ _ _ hs2 hN

/-- Size invariant of the accumulation loop: every produced chunk has at
most `N + 1` characters unless it is a single stripped oversized fragment. -/
theorem chunkLoop_size {N : Nat} (S : List (List Char)) :
    ∀ (L chunks : List (List Char)) (cur : List Char),
      (∀ s ∈ L, s ∈ S) →
      (∀ c ∈ chunks, c.length ≤ N + 1 ∨ ∃ s ∈ S, c = pyStrip s ∧ N < s.length) →
      (cur.length ≤ N + 1 ∨ cur ∈ S) →
      ∀ c ∈ chunkLoop N L chunks cur,
        c.length ≤ N + 1 ∨ ∃ s ∈ S, c = pyStrip s ∧ N < s.length := by
  intro L
  induction L with
  | nil =>
    intro chunks cur hLS hchunks hcur c hc
    simp only [chunkLoop] at hc
    split at hc
    · exact hchunks c hc
    · rcases List.mem_append.mp hc with h | h
      · exact hchunks c h
      · have hcs : c = pyStrip cur := by simpa using h
        subst hcs
        by_cases hlen : cur.length ≤ N + 1
        · exact Or.inl (le_trans (length_pyStrip_le cur) hlen)
        · rcases hcur with h1 | h2
          · exact absurd h1 hlen
          · exact Or.inr ⟨cur, h2, rfl, by omega⟩
  | cons s rest ih =>
    intro chunks cur hLS hchunks hcur c hc
    simp only [chunkLoop] at hc
    split at hc
    · refine ih _ _ (fun u hu => hLS u (List.mem_cons_of_mem s hu)) ?_
        (Or.inr (hLS s (by simp))) c hc
      intro d hd
      rcases List.mem_append.mp hd with h | h
      · exact hchunks d h
      · have hds : d = pyStrip cur := by simpa using h
        subst hds
        by_cases hlen : cur.length ≤ N + 1
        · exact Or.inl (le_trans (length_pyStrip_le cur) hlen)
        · rcases hcur with h1 | h2
          · exact absurd h1 hlen
          · exact Or.inr ⟨cur, h2, rfl, by omega⟩
    · next hcond =>
      by_cases hcure : cur = []
      · simp only [hcure, if_pos] at hc
        exact ih _ _ (fun u hu => hLS u (List.mem_cons_of_mem s hu)) hchunks
          (Or.inr (hLS s (by simp))) c hc
      · simp only [if_neg hcure] at hc
        have hlen : cur.length + s.length ≤ N := by
          by_contra hgt
          exact hcond ⟨Nat.lt_of_not_le hgt, hcure⟩
        refine ih _ _ (fun u hu => hLS u (List.mem_cons_of_mem s hu)) hchunks
          (Or.inl ?_) c hc
        simp only [List.length_append, List.length_cons]
        omega

/-- Invariant: joining the produced chunks with single spaces rejoins the
emitted chunks, the current chunk, and the remaining fragments, provided
all fragments are nonempty and edge-clean. -/
theorem chunkLoop_join {N : Nat} :
    ∀ (L chunks : List (List Char)) (cur : List Char),
      (∀ s ∈ L, s ≠ [] ∧ noEdgeSpace s = true) →
      cur ≠ [] → noEdgeSpace cur = true →
      joinSpace (chunkLoop N L chunks cur) = joinSpace (chunks ++ cur :: L) := by
  intro L
  induction L with
  | nil =>
    intro chunks cur hL hcne hcur
    simp only [chunkLoop]
    rw [if_neg hcne, pyStrip_eq_self hcur]
  | cons s rest ih =>
    intro chunks cur hL hcne hcur
    obtain ⟨hsne, hsE⟩ := hL s (by simp)
    simp only [chunkLoop]
    rw [if_neg hcne]
    split
    · rw [ih (chunks ++ [pyStrip cur]) s
          (fun u hu => hL u (List.mem_cons_of_mem s hu)) hsne hsE]
      rw [pyStrip_eq_self hcur]
      simp
    · rw [ih chunks (cur ++ ' ' :: s)
          (fun u hu => hL u (List.mem_cons_of_mem s hu)) (by simp)
          (noEdgeSpace_join hcur hsE hcne hsne)]
      exact joinSpace_merge chunks cur s rest

/-- C1 counterexample: for text `"ab. c"` and maxChunkSize 4 the single
returned chunk `"ab. c"` has length 5 > 4 yet is not (the trimmed form of)
a single oversized sentence fragment: the greedy size check
`len(cur) + len(s) > N` ignores the joining space. -/
theorem c1_counterexample :
    ¬ (∀ c ∈ split_text_into_chunks (String.data "ab. c") 4,
        c.length ≤ 4 ∨
          ∃ s ∈ sentences (String.data "ab. c"), c = pyStrip s ∧ 4 < s.length) := by
  decide

/-- C1 (amended): every chunk returned by `split_text_into_chunks text N`
has length at most `N + 1`, except a chunk that is the trimmed form of a
single sentence fragment whose own length exceeds `N`. -/
theorem c1_amended (text : List Char) (N : Nat) :
    ∀ c ∈ split_text_into_chunks text N,
      c.length ≤ N + 1 ∨ ∃ s ∈ sentences text, c = pyStrip s ∧ N < s.length := by
  intro c hc
  rw [split_text_into_chunks] at hc
  exact chunkLoop_size (sentences text) (sentences text) [] [] (fun s h => h)
    (by intro d hd; simp at hd) (Or.inl (by simp)) c hc

/-- Witness for `c1_amended` at text `"ab. c"`, N = 4, chunk `"ab. c"`. -/
theorem c1_amended_witness :
    (String.data "ab. c").length ≤ 4 + 1 ∨
      ∃ s ∈ sentences (String.data "ab. c"),
        String.data "ab. c" = pyStrip s ∧ 4 < s.length :=
  c1_amended (String.data "ab. c") 4 (String.data "ab. c") (by decide)

/-- C2 counterexample: `split_text_into_chunks("A. B. C.", 4)` does not
return `["A.", "B.", "C."]`. -/
theorem c2_counterexample :
    split_text_into_chunks (String.data "A. B. C.") 4 ≠
      [String.data "A.", String.data "B.", String.data "C."] := by
  decide

/-- C2 (amended): `split_text_into_chunks("A. B. C.", 4)` returns
`["A. B.", "C."]`: the accumulation check `2 + 2 > 4` is false, so the
first two fragments are joined (length 5) and only `"C."` starts a new
chunk. -/
theorem c2_amended :
    split_text_into_chunks (String.data "A. B. C.") 4 =
      [String.data "A. B.", String.data "C."] := by
  decide

/-- C3 counterexample: the text `" aaaa"` is a single sentence fragment of
length 5 > 4, yet the result is not the singleton `[" aaaa"]` and no
returned chunk has length greater than 4: emitted chunks are stripped, so
the leading space is removed. -/
theorem c3_counterexample :
    sentences (String.data " aaaa") = [String.data " aaaa"] ∧
    4 < (String.data " aaaa").length ∧
    split_text_into_chunks (String.data " aaaa") 4 ≠ [String.data " aaaa"] ∧
    ∀ c ∈ split_text_into_chunks (String.data " aaaa") 4, c.length ≤ 4 := by
  decide

/-- C3 (amended): a single sentence fragment longer than `N` is returned,
whitespace-trimmed, as one whole chunk (never split across chunks); in
particular a text that is a single sentence of length > N yields exactly
the singleton of that sentence trimmed of edge whitespace. -/
theorem c3_amended (text : List Char) (N : Nat) :
    (∀ s ∈ sentences text, N < s.length →
        pyStrip s ∈ split_text_into_chunks text N) ∧
    (sentences text = [text] → N < text.length →
        split_text_into_chunks text N = [pyStrip text]) := by
  constructor
  · intro s hs hN
    rw [split_text_into_chunks]
    exact oversized_fragment_mem (N := N) (sentences text) [] [] s hs hN
  · intro hS hN
    have hne : text ≠ [] := by
      intro h
      rw [h] at hN
      simp at hN
    rw [split_text_into_chunks, hS]
    simp only [chunkLoop]
    rw [if_neg (by simp), if_true]
    rw [if_neg hne]
    rfl

/-- Witness for `c3_amended` at the one-sentence text `" aaaa"` with
N = 4: the trimmed fragment `"aaaa"` is the one returned chunk. -/
theorem c3_amended_witness :
    pyStrip (String.data " aaaa") ∈ split_text_into_chunks (String.data " aaaa") 4 ∧
    split_text_into_chunks (String.data " aaaa") 4 = [pyStrip (String.data " aaaa")] :=
  ⟨(c3_amended (String.data " aaaa") 4).1 (String.data " aaaa") (by decide) (by decide),
   (c3_amended (String.data " aaaa") 4).2 (by decide) (by decide)⟩

/-- C4 counterexample: for text `"A. "` (which produces an empty trailing
fragment) the chunks joined with spaces do not reproduce the fragments
joined with spaces. -/
theorem c4_counterexample :
    joinSpace (split_text_into_chunks (String.data "A. ") 10) ≠
      joinSpace (sentences (String.data "A. ")) := by
  decide

/-- C4 (amended): when every sentence fragment is nonempty and has no
leading or trailing whitespace, joining all chunks with single spaces
reproduces the sentence fragments joined with single spaces (the chunk
sequence is a deterministic function of text and N by construction). -/
theorem c4_chunks_rejoin (text : List Char) (N : Nat)
    (h : ∀ s ∈ sentences text, s ≠ [] ∧ noEdgeSpace s = true) :
    joinSpace (split_text_into_chunks text N) = joinSpace (sentences text) := by
  have hne : sentences text ≠ [] := by
    rw [sentences, pySplit]
    exact splitOnPred_ne_nil _ _
  rw [split_text_into_chunks]
  cases hS : sentences text with
  | nil => exact absurd hS hne
  | cons s rest =>
    obtain ⟨hsne, hsE⟩ := h s (by rw [hS]; simp)
    simp only [chunkLoop]
    rw [if_neg (by simp), if_true]
    rw [chunkLoop_join rest [] s
        (fun u hu => h u (by rw [hS]; exact List.mem_cons_of_mem s hu)) hsne hsE]
    simp

/-- Witness for `c4_chunks_rejoin` at text `"A. B. C."`, N = 4. -/
theorem c4_chunks_rejoin_witness :
    joinSpace (split_text_into_chunks (String.data "A. B. C.") 4) =
      joinSpace (sentences (String.data "A. B. C.")) :=
  c4_chunks_rejoin (String.data "A. B. C.") 4 (by decide)

/-- C6 (evaluation at the failing input): `clean_text` collapses all
whitespace, including the newlines, before splitting on newlines, so the
short line `"7"` is never dropped: the output retains it inside the single
collapsed line. -/
theorem c6_short_line_retained :
    clean_text (String.data "Chapter One\n7\nIt was a dark and stormy night.") =
      String.data "Chapter One 7 It was a dark and stormy night." ∧
    '7' ∈ clean_text (String.data "Chapter One\n7\nIt was a dark and stormy night.") := by
  constructor
  · decide
  · decide

/-- The synthesis loop keeps exactly the indices whose synthesis succeeds,
in order. -/
theorem ttsLoop_eq_filter (ok : Nat → Bool) :
    ∀ (l : List (List Char)) (i : Nat),
      ttsLoop ok i l = (List.range' i l.length).filter ok := by
  intro l
  induction l with
  | nil => intro i; rfl
  | cons c rest ih =>
    intro i
    simp only [ttsLoop, List.length_cons, List.range'_succ, List.filter_cons]
    cases h : ok i with
    | false => simp [h, ih]
    | true => simp [h, ih]

/-- C7: `text_to_speech` returns exactly the successfully synthesized part
files in chunk order, skipping failed chunks without retrying, and
`convert` terminates with an error if and only if zero chunks succeed. -/
theorem c7_partial_synthesis (ok : Nat → Bool) (chunks : List (List Char))
    (pydubAvailable mergeOk : Bool) (rawText : List Char)
    (mergeFiles cleanupParts : Bool) (hraw : rawText ≠ []) :
    text_to_speech ok chunks = (List.range' 1 chunks.length).filter ok ∧
    (isError (convert pydubAvailable ok mergeOk rawText mergeFiles cleanupParts) = true ↔
      text_to_speech ok (split_text_into_chunks (clean_text rawText) 4500) = []) := by
  constructor
  · exact ttsLoop_eq_filter ok chunks 1
  · simp only [convert]
    rw [if_neg hraw]
    by_cases h : text_to_speech ok (split_text_into_chunks (clean_text rawText) 4500) = []
    · rw [if_pos h]
      simp [isError, h]
    · rw [if_neg h]
      refine iff_of_false ?_ h
      split
      · simp [isError]
      · simp [isError]

/-- Witness for `c7_partial_synthesis` with an always-succeeding backend
and nonempty extracted text. -/
theorem c7_witness :
    text_to_speech (fun _ => true) [] =
      (List.range' 1 (List.length ([] : List (List Char)))).filter (fun _ => true) ∧
    (isError (convert true (fun _ => true) true
        (String.data "A long enough test sentence.") true true) = true ↔
      text_to_speech (fun _ => true)
        (split_text_into_chunks (clean_text (String.data "A long enough test sentence."))
          4500) = []) :=
  c7_partial_synthesis (fun _ => true) [] true true
    (String.data "A long enough test sentence.") true true (by decide)

/-- C8: with the merge backend unavailable and `merge_files = true`,
`convert` succeeds, carries exactly the synthesized per-chunk files (no
merged artifact), and deletes nothing, regardless of `cleanup_parts`;
`merge_audio_files` itself returns the input list unchanged. -/
theorem c8_no_pydub_keeps_parts (ok : Nat → Bool) (mergeOk : Bool)
    (rawText : List Char) (cleanupParts : Bool) (files : List Nat)
    (hraw : rawText ≠ [])
    (haudio : text_to_speech ok (split_text_into_chunks (clean_text rawText) 4500) ≠ []) :
    merge_audio_files false mergeOk files = PyResult.fileList files ∧
    ∃ out, convert false ok mergeOk rawText true cleanupParts = Except.ok out ∧
      resultFiles out.result =
        text_to_speech ok (split_text_into_chunks (clean_text rawText) 4500) ∧
      out.result ≠ PyResult.mergedFile ∧
      out.deletedParts = [] := by
  constructor
  · rfl
  · simp only [convert]
    rw [if_neg hraw, if_neg haudio, if_neg (by simp)]
    refine ⟨_, rfl, ?_, ?_, rfl⟩
    · by_cases h1 :
        (text_to_speech ok (split_text_into_chunks (clean_text rawText) 4500)).length = 1
      · obtain ⟨x, hx⟩ := List.length_eq_one.mp h1
        rw [if_pos h1, hx]
        rfl
      · rw [if_neg h1]
        rfl
    · by_cases h1 :
        (text_to_speech ok (split_text_into_chunks (clean_text rawText) 4500)).length = 1
      · rw [if_pos h1]
        simp
      · rw [if_neg h1]
        simp

/-- Witness for `c8_no_pydub_keeps_parts` at a concrete one-chunk text. -/
theorem c8_witness :
    merge_audio_files false true [3, 7] = PyResult.fileList [3, 7] ∧
    ∃ out, convert false (fun _ => true) true (String.data "abcdefghijkl.") true true =
        Except.ok out ∧
      resultFiles out.result =
        text_to_speech (fun _ => true)
          (split_text_into_chunks (clean_text (String.data "abcdefghijkl.")) 4500) ∧
      out.result ≠ PyResult.mergedFile ∧
      out.deletedParts = [] :=
  c8_no_pydub_keeps_parts (fun _ => true) true (String.data "abcdefghijkl.") true [3, 7]
    (by decide) (by decide)

/-- C9 counterexample: merging two segments does not produce exactly one
silence gap between them and silence nowhere else: the loop also appends a
trailing silence after the final segment. -/
theorem c9_counterexample :
    combinedSeq [1, 2] ≠
      List.intersperse AudTok.gap (List.map AudTok.seg [1, 2]) := by
  decide

/-- Unrolling the merge loop: segments in order with one silence appended
after every segment. -/
theorem combinedSeq_foldl :
    ∀ (fs : List Nat) (acc : List AudTok), fs ≠ [] →
      fs.foldl (fun a f => a ++ [AudTok.seg f, AudTok.gap]) acc =
        acc ++ (List.intersperse AudTok.gap (fs.map AudTok.seg) ++ [AudTok.gap]) := by
  intro fs
  induction fs with
  | nil =>
    intro acc h
    exact absurd rfl h
  | cons f rest ih =>
    intro acc _
    cases rest with
    | nil => simp
    | cons g2 t =>
      rw [List.foldl_cons]
      rw [ih _ (by simp)]
      simp only [List.map_cons, List.intersperse_cons_cons]
      simp

/-- C9 (amended): for two or more segments, the merged sequence is the
segments in index order with exactly one 1-second silence between each
consecutive pair and additionally one trailing silence after the final
segment. -/
theorem c9_amended (fs : List Nat) (h : 2 ≤ fs.length) :
    combinedSeq fs =
      List.intersperse AudTok.gap (fs.map AudTok.seg) ++ [AudTok.gap] := by
  rw [combinedSeq, combinedSeq_foldl fs []
      (by intro hfs; rw [hfs] at h; simp at h)]
  simp

/-- Witness for `c9_amended` at two segments. -/
theorem c9_amended_witness :
    combinedSeq [1, 2] =
      List.intersperse AudTok.gap (List.map AudTok.seg [1, 2]) ++ [AudTok.gap] :=
  c9_amended [1, 2] (by decide)

/-- C10: with the merge backend available, merging an empty file list
returns Python `None` (whichever way the try-block would have gone),
neither a path nor a list. -/
theorem c10_empty_merge_none :
    merge_audio_files true true [] = PyResult.pyNone ∧
    merge_audio_files true false [] = PyResult.pyNone := by
  decide
